import Mathlib

/-!
Verification of the in-memory module cache
(`packages/vm/src/modules/in_memory_cache.rs`).

The repository wraps the external `clru` weighted LRU container; that
container's code is not part of the repository sources, so it is modelled
here from the specification (§4.2, EvictionStore).  The `InMemoryCache`
wrapper (`new`, `store`, `load`, `len`, `size`) is translated directly from
the Rust source.
-/

namespace InMemCache

/-- A 32-byte content hash identifying a bytecode module, modelled by its
numeric value; only byte-exact equality is used by the cache. -/
abbrev Checksum := Nat

/-- An opaque, cheaply-cloneable compiled-module handle (external
`wasmer::Module`), modelled as an abstract identifier. -/
abbrev Module := Nat

/-- `CachedModule`: a compiled-module handle plus its caller-declared byte
size (from `cached_module.rs`, a plain data holder per the spec §4.3). -/
structure CachedModule where
  module : Module
  size : Nat
deriving DecidableEq

/-- From the source: `SizeScale` weighs an entry by its declared `size`
field, independent of the key. -/
def SizeScale.weight (_key : Checksum) (value : CachedModule) : Nat :=
  value.size

/-- Sum of weights of a list of entries. -/
def totalWeight (entries : List (Checksum × CachedModule)) : Nat :=
  (entries.map fun p => SizeScale.weight p.1 p.2).sum

/-- Remove every entry with the given key. -/
def eraseKey (entries : List (Checksum × CachedModule)) (k : Checksum) :
    List (Checksum × CachedModule) :=
  entries.filter fun p => p.1 != k

/-- Modelled from the spec: the eviction loop of the `clru` container
(EvictionStore, §4.2), whose source is not part of this repository.
Entries are kept least-recently-used first, most-recently-used last;
while the running total exceeds the budget, the least-recently-used
entry (the head) is evicted. -/
def evict (budget : Nat) :
    List (Checksum × CachedModule) → List (Checksum × CachedModule)
  | [] => []
  | e :: es => if totalWeight (e :: es) ≤ budget then e :: es else evict budget es

/-- Modelled from the spec: the `clru` weighted LRU container
(EvictionStore, §4.2).  `budget` is the configured weight capacity,
`preallocated` the advisory pre-allocation hint (`with_memory`), and
`entries` the live key/value pairs in recency order (least-recently-used
first). -/
structure CLruCache where
  budget : Nat
  preallocated : Nat
  entries : List (Checksum × CachedModule)
deriving DecidableEq

/-- Modelled from the spec: `CLruCache::get` — on a hit, promotes the key
to most-recently-used and returns the entry; on a miss, leaves the state
unchanged (§4.2). -/
def CLruCache.get (c : CLruCache) (k : Checksum) :
    Option CachedModule × CLruCache :=
  match c.entries.find? (fun p => p.1 == k) with
  | some p => (some p.2, { c with entries := eraseKey c.entries k ++ [p] })
  | none => (none, c)

/-- Modelled from the spec: `CLruCache::put_with_weight` — inserts or
replaces (the old entry's weight is removed first), makes the key
most-recently-used, then evicts from the least-recently-used end until
the total fits the budget, possibly evicting the just-inserted entry
itself; in that case an error is returned and evictions are not rolled
back (§4.2). -/
def CLruCache.put_with_weight (c : CLruCache) (k : Checksum) (v : CachedModule) :
    Except (Checksum × CachedModule) Unit × CLruCache :=
  let es := evict c.budget (eraseKey c.entries k ++ [(k, v)])
  ((if es.isEmpty then Except.error (k, v) else Except.ok ()),
   { c with entries := es })

/-- The host runtime's error type (external), restricted to the one variant
the cache contributes: a cache error carrying a free-text diagnostic. -/
inductive VmError where
  | CacheErr (msg : String)
deriving DecidableEq

/-- `VmError::cache_err` constructor. -/
def VmError.cache_err (msg : String) : VmError :=
  VmError.CacheErr msg

/-- The debug rendering of a rejected entry used in the `store` error
message (`format!` of the `clru` error); its exact content is opaque. -/
def debugFormat (e : Checksum × CachedModule) : String :=
  toString e.1 ++ "/" ++ toString e.2.size

/-- From the source: `MINIMUM_MODULE_SIZE = Size::kibi(250)`, the fixed
minimum-module-size constant used for the pre-allocation hint. -/
def MINIMUM_MODULE_SIZE : Nat := 250 * 1024

/-- From the source: `InMemoryCache` owns an optional `CLruCache`; `None`
means caching is disabled. -/
structure InMemoryCache where
  modules : Option CLruCache
deriving DecidableEq

/-- From the source: `InMemoryCache::new` — computes
`preallocated_entries = size / MINIMUM_MODULE_SIZE` and builds the inner
container only when `size > 0`. -/
def InMemoryCache.new (size : Nat) : InMemoryCache :=
  let preallocated_entries := size / MINIMUM_MODULE_SIZE
  { modules :=
      if size > 0 then
        some { budget := size, preallocated := preallocated_entries, entries := [] }
      else
        none }

/-- From the source: `InMemoryCache::store` — no-op when disabled; when
enabled, delegates to `put_with_weight`, translating a capacity failure
into `VmError::cache_err`.  Returns the result together with the updated
cache (explicit state passing for `&mut self`). -/
def InMemoryCache.store (c : InMemoryCache) (checksum : Checksum)
    (entry : Module) (size : Nat) : Except VmError Unit × InMemoryCache :=
  match c.modules with
  | some modules =>
    match modules.put_with_weight checksum { module := entry, size := size } with
    | (Except.ok _, m) => (Except.ok (), { modules := some m })
    | (Except.error e, m) =>
        (Except.error (VmError.cache_err (debugFormat e)), { modules := some m })
  | none => (Except.ok (), c)

/-- From the source: `InMemoryCache::load` — `Ok(None)` when disabled;
when enabled, delegates to `get`, cloning the hit. -/
def InMemoryCache.load (c : InMemoryCache) (checksum : Checksum) :
    Except VmError (Option CachedModule) × InMemoryCache :=
  match c.modules with
  | some modules =>
    match modules.get checksum with
    | (some cached, m) => (Except.ok (some cached), { modules := some m })
    | (none, m) => (Except.ok none, { modules := some m })
  | none => (Except.ok none, c)

/-- From the source: `InMemoryCache::len` — number of elements, zero when
disabled. -/
def InMemoryCache.len (c : InMemoryCache) : Nat :=
  match c.modules with
  | some modules => modules.entries.length
  | none => 0

/-- From the source: `InMemoryCache::size` — cumulative declared size of
all elements, zero when disabled. -/
def InMemoryCache.size (c : InMemoryCache) : Nat :=
  match c.modules with
  | some modules => totalWeight modules.entries
  | none => 0

/-- One public cache operation (the mutating part of the interface). -/
inductive CacheOp where
  | store (checksum : Checksum) (entry : Module) (size : Nat)
  | load (checksum : Checksum)
deriving DecidableEq

/-- Apply one operation to a cache, discarding the returned value. -/
def applyOp (c : InMemoryCache) : CacheOp → InMemoryCache
  | CacheOp.store k m s => (c.store k m s).2
  | CacheOp.load k => (c.load k).2

/-- Run a sequence of operations starting from a freshly constructed
cache with the given byte budget. -/
def runOps (budget : Nat) (ops : List CacheOp) : InMemoryCache :=
  ops.foldl applyOp (InMemoryCache.new budget)

/-! ### Basic weight lemmas -/

theorem totalWeight_nil : totalWeight [] = 0 := rfl

theorem totalWeight_cons (e : Checksum × CachedModule)
    (es : List (Checksum × CachedModule)) :
    totalWeight (e :: es) = e.2.size + totalWeight es := by
  simp [totalWeight, SizeScale.weight]

theorem totalWeight_append (l₁ l₂ : List (Checksum × CachedModule)) :
    totalWeight (l₁ ++ l₂) = totalWeight l₁ + totalWeight l₂ := by
  simp [totalWeight]

/-! ### Eviction-loop lemmas -/

theorem totalWeight_evict_le (b : Nat) :
    ∀ es : List (Checksum × CachedModule), totalWeight (evict b es) ≤ b
  | [] => by simp [evict, totalWeight]
  | e :: es => by
    rw [evict]
    split
    · assumption
    · exact totalWeight_evict_le b es

theorem evict_of_le {b : Nat} {es : List (Checksum × CachedModule)}
    (h : totalWeight es ≤ b) : evict b es = es := by
  cases es with
  | nil => rfl
  | cons e es => rw [evict, if_pos h]

theorem evict_eq_drop (b : Nat) :
    ∀ es : List (Checksum × CachedModule), ∃ n, evict b es = es.drop n
  | [] => ⟨0, rfl⟩
  | e :: es => by
    rw [evict]
    split
    · exact ⟨0, rfl⟩
    · obtain ⟨n, hn⟩ := evict_eq_drop b es
      exact ⟨n + 1, hn⟩

theorem evict_append_eq_nil {b : Nat} {k : Checksum} {v : CachedModule}
    (h : b < v.size) :
    ∀ es : List (Checksum × CachedModule), evict b (es ++ [(k, v)]) = []
  | [] => by
    rw [List.nil_append, evict, if_neg]
    · rfl
    · simp [totalWeight_cons, totalWeight_nil]
      omega
  | e :: es => by
    rw [List.cons_append, evict, if_neg]
    · exact evict_append_eq_nil h es
    · simp [totalWeight_cons, totalWeight_append, totalWeight_nil]
      omega

theorem evict_append_ne_nil {b : Nat} {k : Checksum} {v : CachedModule}
    (h : v.size ≤ b) :
    ∀ es : List (Checksum × CachedModule), evict b (es ++ [(k, v)]) ≠ []
  | [] => by
    rw [List.nil_append, evict, if_pos]
    · exact List.cons_ne_nil _ _
    · simp [totalWeight_cons, totalWeight_nil]
      omega
  | e :: es => by
    rw [List.cons_append, evict]
    split
    · exact List.cons_ne_nil _ _
    · exact evict_append_ne_nil h es

/-! ### Key-erasure lemmas -/

theorem eraseKey_sublist (es : List (Checksum × CachedModule)) (k : Checksum) :
    (eraseKey es k).Sublist es :=
  List.filter_sublist es

theorem nodup_keys_eraseKey {es : List (Checksum × CachedModule)} (k : Checksum)
    (h : (es.map Prod.fst).Nodup) : ((eraseKey es k).map Prod.fst).Nodup :=
  ((eraseKey_sublist es k).map Prod.fst).nodup h

theorem not_mem_keys_eraseKey (es : List (Checksum × CachedModule))
    (k : Checksum) : k ∉ (eraseKey es k).map Prod.fst := by
  intro hk
  obtain ⟨p, hp, hpk⟩ := List.mem_map.mp hk
  have := (List.mem_filter.mp hp).2
  simp only [bne_iff_ne, ne_eq, decide_eq_true_eq] at this
  exact this hpk

theorem eraseKey_of_not_mem {es : List (Checksum × CachedModule)}
    {k : Checksum} (h : k ∉ es.map Prod.fst) : eraseKey es k = es := by
  apply List.filter_eq_self.mpr
  intro p hp
  simp only [bne_iff_ne, ne_eq, decide_eq_true_eq]
  intro hpk
  exact h (List.mem_map.mpr ⟨p, hp, hpk⟩)

/-- With unique keys, a live entry splits the list around itself and
`eraseKey` removes exactly that entry. -/
theorem eraseKey_decomp {es : List (Checksum × CachedModule)} {k : Checksum}
    {v : CachedModule} (hnd : (es.map Prod.fst).Nodup) (hmem : (k, v) ∈ es) :
    ∃ l₁ l₂, es = l₁ ++ (k, v) :: l₂ ∧ eraseKey es k = l₁ ++ l₂ := by
  induction es with
  | nil => cases hmem
  | cons q rest ih =>
    rw [List.map_cons, List.nodup_cons] at hnd
    rcases List.mem_cons.mp hmem with hq | hrest
    · subst hq
      refine ⟨[], rest, rfl, ?_⟩
      have hnotin : (k : Checksum) ∉ rest.map Prod.fst := hnd.1
      show eraseKey ((k, v) :: rest) k = rest
      rw [eraseKey, List.filter_cons]
      simp only [bne_self_eq_false, Bool.false_eq_true, if_false]
      exact eraseKey_of_not_mem hnotin
    · have hqk : q.1 ≠ k := by
        intro hqk
        exact hnd.1 (hqk ▸ List.mem_map.mpr ⟨(k, v), hrest, rfl⟩)
      obtain ⟨l₁, l₂, h₁, h₂⟩ := ih hnd.2 hrest
      refine ⟨q :: l₁, l₂, by rw [h₁, List.cons_append], ?_⟩
      have hcond : (q.1 != k) = true := by simpa using hqk
      rw [eraseKey, List.filter_cons, if_pos hcond, List.cons_append]
      exact congrArg (q :: ·) h₂

theorem totalWeight_eraseKey_add {es : List (Checksum × CachedModule)}
    {k : Checksum} {v : CachedModule} (hnd : (es.map Prod.fst).Nodup)
    (hmem : (k, v) ∈ es) :
    totalWeight (eraseKey es k) + v.size = totalWeight es := by
  obtain ⟨l₁, l₂, h₁, h₂⟩ := eraseKey_decomp hnd hmem
  rw [h₂, h₁, totalWeight_append, totalWeight_append, totalWeight_cons]
  simp
  omega

theorem length_eraseKey_add {es : List (Checksum × CachedModule)}
    {k : Checksum} {v : CachedModule} (hnd : (es.map Prod.fst).Nodup)
    (hmem : (k, v) ∈ es) : (eraseKey es k).length + 1 = es.length := by
  obtain ⟨l₁, l₂, h₁, h₂⟩ := eraseKey_decomp hnd hmem
  rw [h₂, h₁]
  simp
  omega

/-! ### Unfolding the wrapper operations -/

theorem store_eq (c : InMemoryCache) (mm : CLruCache) (k : Checksum)
    (mo : Module) (s : Nat) (hc : c.modules = some mm) :
    c.store k mo s =
      ((if (evict mm.budget (eraseKey mm.entries k ++ [(k, ⟨mo, s⟩)])).isEmpty
        then Except.error (VmError.cache_err (debugFormat (k, ⟨mo, s⟩)))
        else Except.ok ()),
       InMemoryCache.mk (some (CLruCache.mk mm.budget mm.preallocated
         (evict mm.budget (eraseKey mm.entries k ++ [(k, ⟨mo, s⟩)]))))) := by
  by_cases hE : (evict mm.budget (eraseKey mm.entries k ++ [(k, ⟨mo, s⟩)])).isEmpty
  · simp [InMemoryCache.store, CLruCache.put_with_weight, hc, hE]
  · simp [InMemoryCache.store, CLruCache.put_with_weight, hc, hE]

theorem load_eq_disabled (c : InMemoryCache) (k : Checksum)
    (hc : c.modules = none) : c.load k = (Except.ok none, c) := by
  simp [InMemoryCache.load, hc]

theorem load_eq_miss (c : InMemoryCache) (mm : CLruCache) (k : Checksum)
    (hc : c.modules = some mm)
    (hf : mm.entries.find? (fun q => q.1 == k) = none) :
    c.load k = (Except.ok none, c) := by
  cases c with
  | mk mods =>
    simp only at hc
    subst hc
    simp [InMemoryCache.load, CLruCache.get, hf]

theorem load_eq_hit (c : InMemoryCache) (mm : CLruCache) (k : Checksum)
    (p : Checksum × CachedModule) (hc : c.modules = some mm)
    (hf : mm.entries.find? (fun q => q.1 == k) = some p) :
    c.load k = (Except.ok (some p.2),
      InMemoryCache.mk
        (some { mm with entries := eraseKey mm.entries k ++ [p] })) := by
  simp [InMemoryCache.load, CLruCache.get, hc, hf]

/-! ### The reachable-state invariant -/

/-- When enabled, the inner container keeps the configured budget, unique
keys, and a running total within the budget. -/
def Inv (b : Nat) (c : InMemoryCache) : Prop :=
  ∀ mm, c.modules = some mm →
    mm.budget = b ∧ (mm.entries.map Prod.fst).Nodup ∧
      totalWeight mm.entries ≤ b

theorem inv_new (b : Nat) : Inv b (InMemoryCache.new b) := by
  intro mm hmm
  simp only [InMemoryCache.new] at hmm
  split at hmm
  · injection hmm with h
    subst h
    exact ⟨rfl, List.nodup_nil, by simp [totalWeight]⟩
  · cases hmm

theorem nodup_keys_put (mm : CLruCache) (k : Checksum) (v : CachedModule)
    (hnd : (mm.entries.map Prod.fst).Nodup) :
    ((evict mm.budget (eraseKey mm.entries k ++ [(k, v)])).map
      Prod.fst).Nodup := by
  have h1 : ((eraseKey mm.entries k ++ [(k, v)]).map Prod.fst).Nodup := by
    rw [List.map_append, List.nodup_append]
    refine ⟨nodup_keys_eraseKey k hnd, List.nodup_singleton _, ?_⟩
    intro a ha hb
    simp only [List.map_cons, List.map_nil, List.mem_singleton] at hb
    subst hb
    exact not_mem_keys_eraseKey _ _ ha
  obtain ⟨n, hn⟩ := evict_eq_drop mm.budget (eraseKey mm.entries k ++ [(k, v)])
  rw [hn]
  exact ((List.drop_sublist n _).map Prod.fst).nodup h1

theorem inv_applyOp {b : Nat} {c : InMemoryCache} (h : Inv b c)
    (op : CacheOp) : Inv b (applyOp c op) := by
  cases op with
  | store k mo s =>
    cases hc : c.modules with
    | none =>
      have hid : applyOp c (CacheOp.store k mo s) = c := by
        simp [applyOp, InMemoryCache.store, hc]
      rw [hid]
      exact h
    | some mm =>
      obtain ⟨hb, hnd, _⟩ := h mm hc
      intro mm' hmm'
      have h2 : (applyOp c (CacheOp.store k mo s)).modules
          = some (CLruCache.mk mm.budget mm.preallocated
              (evict mm.budget (eraseKey mm.entries k ++ [(k, ⟨mo, s⟩)]))) := by
        simp [applyOp, store_eq c mm k mo s hc]
      rw [h2] at hmm'
      injection hmm' with h3
      subst h3
      refine ⟨hb, nodup_keys_put mm k ⟨mo, s⟩ hnd, ?_⟩
      have htot := totalWeight_evict_le mm.budget
        (eraseKey mm.entries k ++ [(k, ⟨mo, s⟩)])
      simpa [hb] using htot
  | load k =>
    cases hc : c.modules with
    | none =>
      have hid : applyOp c (CacheOp.load k) = c := by
        simp [applyOp, InMemoryCache.load, hc]
      rw [hid]
      exact h
    | some mm =>
      obtain ⟨hb, hnd, htot⟩ := h mm hc
      cases hf : mm.entries.find? (fun q => q.1 == k) with
      | none =>
        have hid : applyOp c (CacheOp.load k) = c := by
          simp [applyOp, load_eq_miss c mm k hc hf]
        rw [hid]
        exact h
      | some p =>
        have hp := List.mem_of_find?_eq_some hf
        have hpk : p.1 = k := by simpa using List.find?_some hf
        intro mm' hmm'
        have h2 : (applyOp c (CacheOp.load k)).modules
            = some (CLruCache.mk mm.budget mm.preallocated
                (eraseKey mm.entries k ++ [p])) := by
          simp [applyOp, load_eq_hit c mm k p hc hf]
        rw [h2] at hmm'
        injection hmm' with h3
        subst h3
        have hmem : (k, p.2) ∈ mm.entries := by
          rw [← hpk, Prod.mk.eta]
          exact hp
        have hnd2 : ((eraseKey mm.entries k ++ [p]).map Prod.fst).Nodup := by
          rw [List.map_append, List.nodup_append]
          refine ⟨nodup_keys_eraseKey k hnd, List.nodup_singleton _, ?_⟩
          intro a ha hb2
          simp only [List.map_cons, List.map_nil, List.mem_singleton] at hb2
          subst hb2
          rw [hpk] at ha
          exact not_mem_keys_eraseKey _ _ ha
        refine ⟨hb, hnd2, ?_⟩
        have hsum := totalWeight_eraseKey_add hnd hmem
        have tw1 : totalWeight [p] = p.2.size := by
          simp [totalWeight, SizeScale.weight]
        rw [totalWeight_append, tw1]
        omega

theorem inv_foldl {b : Nat} {c : InMemoryCache} (h : Inv b c) :
    ∀ ops : List CacheOp, Inv b (ops.foldl applyOp c)
  | [] => h
  | op :: ops => inv_foldl (inv_applyOp h op) ops

theorem inv_runOps (b : Nat) (ops : List CacheOp) : Inv b (runOps b ops) :=
  inv_foldl (inv_new b) ops

/-! ### Disabled configuration lemmas -/

theorem modules_none_applyOp {c : InMemoryCache} (h : c.modules = none)
    (op : CacheOp) : (applyOp c op).modules = none := by
  cases op <;> simp [applyOp, InMemoryCache.store, InMemoryCache.load, h]

theorem modules_none_foldl {c : InMemoryCache} (h : c.modules = none) :
    ∀ ops : List CacheOp, (ops.foldl applyOp c).modules = none
  | [] => h
  | op :: ops => modules_none_foldl (modules_none_applyOp h op) ops

theorem modules_none_runOps (ops : List CacheOp) :
    (runOps 0 ops).modules = none :=
  modules_none_foldl (by simp [InMemoryCache.new]) ops

/-! ### Claim theorems -/

/-- C1: Budget invariant — for every enabled cache (budget > 0) and every
sequence of completed store and load calls, the running weight total
reported by `size` (the sum of declared sizes of all live entries) is at
most the configured budget. -/
theorem c1_budget_invariant (b : Nat) (hb : 0 < b) (ops : List CacheOp) :
    (runOps b ops).size ≤ b := by
  have h := inv_runOps b ops
  cases hm : (runOps b ops).modules with
  | none => simp [InMemoryCache.size, hm]
  | some mm => simpa [InMemoryCache.size, hm] using (h mm hm).2.2

/-- Witness for C1 at a concrete budget and operation sequence. -/
theorem c1_budget_invariant_witness :
    0 < 2000000 ∧
      (runOps 2000000 [CacheOp.store 1 101 900000, CacheOp.store 2 102 800000,
        CacheOp.store 3 103 1500000, CacheOp.load 2]).size ≤ 2000000 :=
  ⟨by decide, c1_budget_invariant 2000000 (by decide) _⟩

/-- C2: LRU eviction order — with budget 2000000, storing key 1 with size
900000, then key 2 with size 800000, then key 3 with size 1500000, all
stores succeed, the intermediate states are len 1 / size 900000 and
len 2 / size 1700000, and the third store evicts exactly keys 1 and 2
from the least-recently-used end, leaving only key 3 with len 1 and
size 1500000. -/
theorem c2_lru_eviction_order :
    (let c0 := InMemoryCache.new 2000000
     let r1 := c0.store 1 101 900000
     let r2 := r1.2.store 2 102 800000
     let r3 := r2.2.store 3 103 1500000
     r1.1 = Except.ok () ∧ r1.2.len = 1 ∧ r1.2.size = 900000 ∧
       r2.1 = Except.ok () ∧ r2.2.len = 2 ∧ r2.2.size = 1700000 ∧
         r3.1 = Except.ok () ∧ r3.2.len = 1 ∧ r3.2.size = 1500000 ∧
           (r3.2.modules.map fun m => m.entries.map Prod.fst) = some [3]) :=
  ⟨rfl, rfl, rfl, rfl, rfl, rfl, rfl, rfl, rfl, rfl⟩

/-- C6: Disabled-cache no-op — with budget 0 the inner store is `none`
(not an empty store) after any operation sequence, `len` and `size`
report 0, every further store returns `Ok ()` leaving the cache
unchanged, and every load returns `Ok none` leaving the cache
unchanged. -/
theorem c6_disabled_cache_noop (ops : List CacheOp) (k : Checksum)
    (mo : Module) (s : Nat) :
    (runOps 0 ops).modules = none ∧ (runOps 0 ops).len = 0 ∧
      (runOps 0 ops).size = 0 ∧
      (runOps 0 ops).store k mo s = (Except.ok (), runOps 0 ops) ∧
      (runOps 0 ops).load k = (Except.ok none, runOps 0 ops) := by
  have h := modules_none_runOps ops
  refine ⟨h, ?_, ?_, ?_, ?_⟩
  · simp [InMemoryCache.len, h]
  · simp [InMemoryCache.size, h]
  · simp [InMemoryCache.store, h]
  · exact load_eq_disabled _ k h

/-- C7: Load never fails — for every cache state (disabled or enabled)
and every checksum, `load` returns `Ok`; and when the key is not live
(never stored, or evicted), it returns `Ok none`, never an error. -/
theorem c7_load_never_fails (c : InMemoryCache) (k : Checksum) :
    (∃ r, (c.load k).1 = Except.ok r) ∧
      ((∀ mm, c.modules = some mm → k ∉ mm.entries.map Prod.fst) →
        (c.load k).1 = Except.ok none) := by
  cases hc : c.modules with
  | none =>
    rw [load_eq_disabled c k hc]
    exact ⟨⟨none, rfl⟩, fun _ => rfl⟩
  | some mm =>
    cases hf : mm.entries.find? (fun q => q.1 == k) with
    | none =>
      rw [load_eq_miss c mm k hc hf]
      exact ⟨⟨none, rfl⟩, fun _ => rfl⟩
    | some p =>
      rw [load_eq_hit c mm k p hc hf]
      refine ⟨⟨some p.2, rfl⟩, ?_⟩
      intro hmiss
      exfalso
      have hp := List.mem_of_find?_eq_some hf
      have hpk : p.1 = k := by simpa using List.find?_some hf
      exact hmiss mm rfl (List.mem_map.mpr ⟨p, hp, hpk⟩)

/-- Witness for C7 at a concrete cache and key. -/
theorem c7_load_never_fails_witness :
    (∃ r, ((InMemoryCache.new 0).load 1).1 = Except.ok r) ∧
      ((∀ mm, (InMemoryCache.new 0).modules = some mm →
          1 ∉ mm.entries.map Prod.fst) →
        ((InMemoryCache.new 0).load 1).1 = Except.ok none) :=
  c7_load_never_fails (InMemoryCache.new 0) 1

/-- C3 counterexample: re-storing an existing key can additionally evict
other entries, so a successful store of an existing key does not in
general change the total by s2 - s1 nor leave `len` unchanged.  With
budget 10 and two live entries of sizes 5 and 5, re-storing the second
key with size 10 succeeds, but `len` drops from 2 to 1 and the total
stays 10 instead of becoming 10 - 5 + 10 = 15. -/
theorem c3_replacement_counterexample :
    (let c2 := (((InMemoryCache.new 10).store 1 0 5).2.store 2 0 5).2
     let r := c2.store 2 0 10
     r.1 = Except.ok () ∧ c2.len = 2 ∧ c2.size = 10 ∧
       r.2.len ≠ c2.len ∧ r.2.size ≠ c2.size - 5 + 10) :=
  ⟨rfl, rfl, rfl, by decide, by decide⟩

/-- C3 (amended): for every enabled cache already holding key k with
declared size s1, a successful store of k again with declared size s2
changes the running total by s2 - s1 (the old weight is removed, not
double-counted) and leaves `len` unchanged, provided the replacement
itself fits the budget (the total after swapping the weights does not
exceed it, so no further LRU eviction is triggered). -/
theorem c3_replacement_accounting (c : InMemoryCache) (mm : CLruCache)
    (k : Checksum) (v1 : CachedModule) (m2 : Module) (s2 : Nat)
    (hmod : c.modules = some mm)
    (hnd : (mm.entries.map Prod.fst).Nodup)
    (hmem : (k, v1) ∈ mm.entries)
    (hfit : totalWeight (eraseKey mm.entries k) + s2 ≤ mm.budget) :
    (c.store k m2 s2).1 = Except.ok () ∧
      (c.store k m2 s2).2.size = c.size - v1.size + s2 ∧
      (c.store k m2 s2).2.len = c.len := by
  have hst := store_eq c mm k m2 s2 hmod
  have htote : totalWeight (eraseKey mm.entries k ++ [(k, ⟨m2, s2⟩)])
      = totalWeight (eraseKey mm.entries k) + s2 := by
    rw [totalWeight_append]
    simp [totalWeight, SizeScale.weight]
  have hev : evict mm.budget (eraseKey mm.entries k ++ [(k, ⟨m2, s2⟩)])
      = eraseKey mm.entries k ++ [(k, ⟨m2, s2⟩)] := by
    apply evict_of_le
    rw [htote]
    exact hfit
  have hsum := totalWeight_eraseKey_add hnd hmem
  have hlen := length_eraseKey_add hnd hmem
  rw [hst]
  refine ⟨?_, ?_, ?_⟩
  · simp [hev]
  · simp [InMemoryCache.size, hmod, hev, htote]
    omega
  · simp [InMemoryCache.len, hmod, hev]
    omega

/-- Witness for C3 (amended) at a concrete cache: budget 10, one live
entry of size 5, re-stored with size 6. -/
theorem c3_replacement_accounting_witness :
    (let c := InMemoryCache.mk
      (some (CLruCache.mk 10 0 [(1, CachedModule.mk 7 5)]))
     (c.store 1 9 6).1 = Except.ok () ∧
       (c.store 1 9 6).2.size = c.size - 5 + 6 ∧
       (c.store 1 9 6).2.len = c.len) :=
  c3_replacement_accounting _ (CLruCache.mk 10 0 [(1, CachedModule.mk 7 5)])
    1 (CachedModule.mk 7 5) 9 6 rfl (by decide) (by decide) (by decide)

/-- C4: Single-entry overflow — for every enabled cache and every entry
whose declared size exceeds the budget, store returns a cache error (not
a panic) and a subsequent load of that key returns `Ok none`. -/
theorem c4_single_entry_overflow (c : InMemoryCache) (mm : CLruCache)
    (k : Checksum) (mo : Module) (s : Nat)
    (hmod : c.modules = some mm) (hover : mm.budget < s) :
    (∃ msg, (c.store k mo s).1 = Except.error (VmError.cache_err msg)) ∧
      ((c.store k mo s).2.load k).1 = Except.ok none := by
  have hst := store_eq c mm k mo s hmod
  have hev : evict mm.budget (eraseKey mm.entries k ++ [(k, ⟨mo, s⟩)]) = [] :=
    evict_append_eq_nil (k := k) (v := ⟨mo, s⟩) hover _
  constructor
  · refine ⟨debugFormat (k, ⟨mo, s⟩), ?_⟩
    rw [hst]
    simp [hev]
  · have h2 : (c.store k mo s).2
        = InMemoryCache.mk (some (CLruCache.mk mm.budget mm.preallocated [])) := by
      rw [hst]
      simp [hev]
    rw [h2, load_eq_miss _ (CLruCache.mk mm.budget mm.preallocated []) k rfl rfl]

/-- Witness for C4: budget 10, entry of declared size 11. -/
theorem c4_single_entry_overflow_witness :
    (∃ msg, ((InMemoryCache.new 10).store 1 0 11).1
        = Except.error (VmError.cache_err msg)) ∧
      (((InMemoryCache.new 10).store 1 0 11).2.load 1).1 = Except.ok none :=
  c4_single_entry_overflow (InMemoryCache.new 10) (CLruCache.mk 10 0 [])
    1 0 11 (by decide) (by decide)

/-- C5: Round-trip identity — starting from the empty enabled cache with
budget at least s, `store k m s` succeeds and an immediate `load k`
returns the same module handle and declared size, with len 1 and
size s. -/
theorem c5_round_trip_identity (b : Nat) (k : Checksum) (mo : Module)
    (s : Nat) (hb : 0 < b) (hs : s ≤ b) :
    (((InMemoryCache.new b).store k mo s).1 = Except.ok ()) ∧
      ((((InMemoryCache.new b).store k mo s).2.load k).1
        = Except.ok (some (CachedModule.mk mo s))) ∧
      ((InMemoryCache.new b).store k mo s).2.len = 1 ∧
      ((InMemoryCache.new b).store k mo s).2.size = s := by
  have hmod : (InMemoryCache.new b).modules
      = some (CLruCache.mk b (b / MINIMUM_MODULE_SIZE) []) := by
    simp [InMemoryCache.new, hb]
  have hst := store_eq _ (CLruCache.mk b (b / MINIMUM_MODULE_SIZE) [])
    k mo s hmod
  have hev : evict b [(k, (⟨mo, s⟩ : CachedModule))] = [(k, ⟨mo, s⟩)] :=
    evict_of_le (by simpa [totalWeight, SizeScale.weight] using hs)
  rw [hst]
  refine ⟨?_, ?_, ?_, ?_⟩
  · simp [eraseKey, hev]
  · simp [eraseKey, hev, InMemoryCache.load, CLruCache.get, List.find?]
  · simp [eraseKey, hev, InMemoryCache.len]
  · simp [eraseKey, hev, InMemoryCache.size, totalWeight, SizeScale.weight]

/-- Witness for C5: budget 5, key 1, module handle 42, size 3. -/
theorem c5_round_trip_identity_witness :
    0 < 5 ∧ 3 ≤ 5 ∧
      ((((InMemoryCache.new 5).store 1 42 3).1 = Except.ok ()) ∧
        ((((InMemoryCache.new 5).store 1 42 3).2.load 1).1
          = Except.ok (some (CachedModule.mk 42 3))) ∧
        ((InMemoryCache.new 5).store 1 42 3).2.len = 1 ∧
        ((InMemoryCache.new 5).store 1 42 3).2.size = 3) :=
  ⟨by decide, by decide, c5_round_trip_identity 5 1 42 3 (by decide) (by decide)⟩

/-- C8: Failed-store eviction is not rolled back — when store fails
because the new entry's weight alone exceeds the budget, the resulting
cache holds neither the new entry nor any entry evicted from the
least-recently-used end during the failed admission attempt: its entry
list is empty and `len` is 0. -/
theorem c8_failed_store_not_rolled_back (c : InMemoryCache)
    (mm : CLruCache) (k : Checksum) (mo : Module) (s : Nat)
    (hmod : c.modules = some mm) (hover : mm.budget < s) :
    (∃ mm', (c.store k mo s).2.modules = some mm' ∧ mm'.entries = []) ∧
      (c.store k mo s).2.len = 0 := by
  have hst := store_eq c mm k mo s hmod
  have hev : evict mm.budget (eraseKey mm.entries k ++ [(k, ⟨mo, s⟩)]) = [] :=
    evict_append_eq_nil (k := k) (v := ⟨mo, s⟩) hover _
  have h2 : (c.store k mo s).2
      = InMemoryCache.mk (some (CLruCache.mk mm.budget mm.preallocated [])) := by
    rw [hst]
    simp [hev]
  rw [h2]
  exact ⟨⟨CLruCache.mk mm.budget mm.preallocated [], rfl, rfl⟩, rfl⟩

/-- Witness for C8: budget 10 holding an entry of size 4; a store of an
entry of size 11 fails and leaves the cache entirely empty. -/
theorem c8_failed_store_not_rolled_back_witness :
    (let c := InMemoryCache.mk
      (some (CLruCache.mk 10 0 [(1, CachedModule.mk 5 4)]))
     (∃ mm', (c.store 2 0 11).2.modules = some mm' ∧ mm'.entries = []) ∧
       (c.store 2 0 11).2.len = 0) :=
  c8_failed_store_not_rolled_back _
    (CLruCache.mk 10 0 [(1, CachedModule.mk 5 4)]) 2 0 11 rfl (by decide)

/-- C9: Pre-allocation hint is advisory — `new` computes the
pre-allocated entry count as the budget divided by the fixed 250 KiB
minimum-module-size constant with truncating natural division, and the
hint never affects admission: any entry with declared size below that
constant is accepted by store whenever its size fits the budget. -/
theorem c9_preallocation_advisory (b : Nat) (hb : 0 < b) :
    (∃ mm, (InMemoryCache.new b).modules = some mm ∧
      mm.preallocated = b / MINIMUM_MODULE_SIZE ∧
      MINIMUM_MODULE_SIZE = 250 * 1024) ∧
    (∀ (c : InMemoryCache) (mm : CLruCache) (k : Checksum) (mo : Module)
      (s : Nat), c.modules = some mm → s < MINIMUM_MODULE_SIZE →
      s ≤ mm.budget → (c.store k mo s).1 = Except.ok ()) := by
  constructor
  · refine ⟨CLruCache.mk b (b / MINIMUM_MODULE_SIZE) [], ?_, rfl, rfl⟩
    simp [InMemoryCache.new, hb]
  · intro c mm k mo s hmod hsmall hsfit
    have hst := store_eq c mm k mo s hmod
    have hne := evict_append_ne_nil (k := k) (v := ⟨mo, s⟩) hsfit
      (eraseKey mm.entries k)
    have hfalse : (evict mm.budget
        (eraseKey mm.entries k ++ [(k, (⟨mo, s⟩ : CachedModule))])).isEmpty
          = false := by
      cases hcase : evict mm.budget
          (eraseKey mm.entries k ++ [(k, (⟨mo, s⟩ : CachedModule))]) with
      | nil => exact absurd hcase hne
      | cons a l => rfl
    rw [hst]
    simp [hfalse]

/-- Witness for C9 at budget 2000000 (hint 2000000 / 256000 = 7). -/
theorem c9_preallocation_advisory_witness :
    0 < 2000000 ∧
      ((∃ mm, (InMemoryCache.new 2000000).modules = some mm ∧
        mm.preallocated = 2000000 / MINIMUM_MODULE_SIZE ∧
        MINIMUM_MODULE_SIZE = 250 * 1024) ∧
      (∀ (c : InMemoryCache) (mm : CLruCache) (k : Checksum) (mo : Module)
        (s : Nat), c.modules = some mm → s < MINIMUM_MODULE_SIZE →
        s ≤ mm.budget → (c.store k mo s).1 = Except.ok ())) :=
  ⟨by decide, c9_preallocation_advisory 2000000 (by decide)⟩

/-- C10: Frame property of load — on any reachable cache state, a load
(hit, promoting recency, or miss) leaves `len` and `size` unchanged. -/
theorem c10_load_frame (b : Nat) (ops : List CacheOp) (k : Checksum) :
    ((runOps b ops).load k).2.len = (runOps b ops).len ∧
      ((runOps b ops).load k).2.size = (runOps b ops).size := by
  have hinv := inv_runOps b ops
  cases hc : (runOps b ops).modules with
  | none =>
    rw [load_eq_disabled _ k hc]
    exact ⟨rfl, rfl⟩
  | some mm =>
    obtain ⟨hb, hnd, htot⟩ := hinv mm hc
    cases hf : mm.entries.find? (fun q => q.1 == k) with
    | none =>
      rw [load_eq_miss _ mm k hc hf]
      exact ⟨rfl, rfl⟩
    | some p =>
      rw [load_eq_hit _ mm k p hc hf]
      have hp := List.mem_of_find?_eq_some hf
      have hpk : p.1 = k := by simpa using List.find?_some hf
      have hmem : (k, p.2) ∈ mm.entries := by
        rw [← hpk, Prod.mk.eta]
        exact hp
      refine ⟨?_, ?_⟩
      · have hlen := length_eraseKey_add hnd hmem
        simp [InMemoryCache.len, hc]
        omega
      · have hsum := totalWeight_eraseKey_add hnd hmem
        have tw1 : totalWeight [p] = p.2.size := by
          simp [totalWeight, SizeScale.weight]
        simp [InMemoryCache.size, hc, totalWeight_append, tw1]
        omega

end InMemCache
